import Mathlib

/-!
Verification of the NTM breadth-first simulator (`ntm_isadurni.py`).

The embedding below mirrors `simulate_ntm`: configurations are triples
`(left_of_head, state, right_of_head)`, levels are ordered lists of
configurations, and the driver explores one breadth-first level per
iteration up to `max_steps`.  The Python code keeps a function-local
variable `new_head` that survives across transition applications; a
transition whose `head_move` is outside `{L,R,S}` silently reuses that
stale value (or raises `UnboundLocalError` when none was ever set).  The
embedding threads this as an `Option Nat` and models the uncaught
exception as `none` at every layer.
-/

/-- One transition rule, as parsed by `read_ntm` (lines 24-30 of the source):
`(current_state, input_char, next_state, tape_write, head_move)`. -/
structure Transition where
  current_state : String
  input_char : Char
  next_state : String
  tape_write : Char
  head_move : Char
deriving DecidableEq, Repr

/-- The machine description dictionary returned by `read_ntm` (lines 33-42). -/
structure Automata where
  machine_name : String
  state_names : List String
  sigma : List String
  gamma : List String
  start_state : String
  accept_state : String
  reject_state : String
  transitions : List Transition
deriving DecidableEq, Repr

/-- A configuration `[left_of_head, state, right_of_head]` (line 57 / 74):
the head sits on the first cell of `right`. -/
structure Config where
  left : List Char
  state : String
  right : List Char
deriving DecidableEq, Repr

/-- Final outcome of a run: lines 126-129 (accepted / rejected at the depth
of the level whose expansion was empty) or line 139 (max depth reached). -/
inductive Verdict where
  | accepted : Nat → Verdict
  | rejected : Nat → Verdict
  | maxDepthReached : Nat → Verdict
deriving DecidableEq, Repr

/-- The depth reported by a verdict. -/
def Verdict.depth : Verdict → Nat
  | accepted d => d
  | rejected d => d
  | maxDepthReached m => m

/-- What `simulate_ntm` reports: final verdict, `total_transitions`
(line 93), and the tree of configuration levels (line 54). -/
structure SimResult where
  verdict : Verdict
  total_transitions : Nat
  tree : List (List Config)
deriving DecidableEq, Repr

/-- The guard of line 91.  In Python the conditional expression binds
tighter than `and`, so the line parses as
`state_eq and ((input_char == tape[head]) if head < len(tape) else "_")`;
the string `"_"` is truthy, hence the `else` branch is `true`. -/
def transMatches (t : Transition) (state : String) (tape : List Char) (head : Nat) : Bool :=
  t.current_state == state &&
    (if h : head < tape.length then t.input_char == tape.get ⟨head, h⟩ else true)

/-- Lines 96-100: write `w` at `head`, appending when the head sits just
past the end of the tape. -/
def writeCell (tape : List Char) (head : Nat) (w : Char) : List Char :=
  if head < tape.length then tape.set head w else tape ++ [w]

/-- Lines 102-108: the value `new_head` holds after the if/elif chain.
`stale` is the value the Python local `new_head` carried over from the
previous application (if any): a move outside `{L,R,S}` leaves `new_head`
untouched, and `none` models the `UnboundLocalError` raised when it was
never assigned at all. -/
def moveHead (m : Char) (head : Nat) (stale : Option Nat) : Option Int :=
  if m = 'R' then some ((head : Int) + 1)
  else if m = 'L' then some ((head : Int) - 1)
  else if m = 'S' then some (head : Int)
  else stale.map (fun s => (s : Int))

/-- Lines 111-113: a negative head position prepends a blank and clamps
the head to 0. -/
def clampInsert (new_tape : List Char) (r0 : Int) : List Char × Nat :=
  if r0 < 0 then ('_' :: new_tape, 0) else (new_tape, r0.toNat)

/-- Lines 114-115: a head at or past the end appends one blank (the head
value itself is not changed). -/
def appendIfPastEnd (p : List Char × Nat) : List Char :=
  if p.1.length ≤ p.2 then p.1 ++ ['_'] else p.1

/-- Lines 95-122: apply one matching transition.  Returns the new
configuration (tape split at the new head, lines 117-122) together with
the value `new_head` holds afterwards. -/
def applyTransition (t : Transition) (tape : List Char) (head : Nat) (stale : Option Nat) :
    Option (Config × Nat) :=
  match moveHead t.head_move head stale with
  | none => none
  | some r0 =>
    let p := clampInsert (writeCell tape head t.tape_write) r0
    let tape3 := appendIfPastEnd p
    some (⟨tape3.take p.2, t.next_state, tape3.drop p.2⟩, p.2)

/-- The inner loop of lines 90-122: try every rule in order against the
current configuration, producing the configurations added to the next
level, the number of transitions applied, and the final `new_head`. -/
def runTransitions (state : String) (tape : List Char) (head : Nat) :
    List Transition → Option Nat → Option (List Config × Nat × Option Nat)
  | [], stale => some ([], 0, stale)
  | t :: rest, stale =>
    if transMatches t state tape head then
      match applyTransition t tape head stale with
      | none => none
      | some (c, h2) =>
        match runTransitions state tape head rest (some h2) with
        | none => none
        | some (cs, n, st) => some (c :: cs, n + 1, st)
    else runTransitions state tape head rest stale

/-- Lines 74-122, the body processing one configuration of a level.
Returns the configurations it contributes to the next level, and the
deltas to `total_transitions`, `accept_count` and `reject_count`, plus the
updated `new_head` local. -/
def stepConfig (aut : Automata) (c : Config) (stale : Option Nat) :
    Option (List Config × Nat × Nat × Nat × Option Nat) :=
  if c.state = aut.accept_state then some ([], 0, 1, 0, stale)
  else if c.state = aut.reject_state then some ([c], 0, 0, 1, stale)
  else
    match runTransitions c.state (c.left ++ c.right) c.left.length aut.transitions stale with
    | none => none
    | some (cs, n, st) => some (cs, n, 0, 0, st)

/-- Processing one whole level (the `for ... in current_level` loop),
accumulating `next_level` in order and summing the counter deltas. -/
def stepLevel (aut : Automata) :
    List Config → Option Nat → Option (List Config × Nat × Nat × Nat × Option Nat)
  | [], stale => some ([], 0, 0, 0, stale)
  | c :: rest, stale =>
    match stepConfig aut c stale with
    | none => none
    | some (cs, n, a, rj, st2) =>
      match stepLevel aut rest st2 with
      | none => none
      | some (cs2, n2, a2, rj2, st3) =>
        some (cs ++ cs2, n + n2, a + a2, rj + rj2, st3)

/-- The `while depth < max_steps` loop of lines 70-140.  `fuel` is
`max_steps - depth`; the tree always ends with the level currently being
expanded.  An empty next level terminates with the accept/reject verdict
at the current depth (lines 124-131); exhausted fuel gives the
max-depth report (lines 137-140). -/
def simLoop (aut : Automata) (ms : Nat) :
    Nat → Nat → List (List Config) → List Config → Nat → Nat → Option Nat → Option SimResult
  | 0, _depth, tree, _current, total, _accept, _stale =>
    some ⟨Verdict.maxDepthReached ms, total, tree⟩
  | fuel + 1, depth, tree, current, total, accept, stale =>
    match stepLevel aut current stale with
    | none => none
    | some (next, n, a, _rj, st2) =>
      if next.isEmpty then
        some ⟨if accept + a > 0 then Verdict.accepted depth else Verdict.rejected depth,
              total + n, tree⟩
      else
        simLoop aut ms fuel (depth + 1) (tree ++ [next]) next (total + n) (accept + a) st2

/-- `simulate_ntm(automata, input_string, max_steps=100)`: start from the
single configuration `["", start_state, input_string]` (line 57). -/
def simulate_ntm (aut : Automata) (input : List Char) (max_steps : Nat := 100) :
    Option SimResult :=
  simLoop aut max_steps max_steps 0 [[⟨[], aut.start_state, input⟩]]
    [⟨[], aut.start_state, input⟩] 0 0 none

/-- Number of accepting configurations in a level. -/
def acceptCount (aut : Automata) (l : List Config) : Nat :=
  l.countP (fun c => c.state == aut.accept_state)

/-- Two levels related by one breadth-first expansion step. -/
def LevelStep (aut : Automata) (l l2 : List Config) : Prop :=
  ∃ stale n a rj st2, stepLevel aut l stale = some (l2, n, a, rj, st2)

-- Scenario from spec §8: single rule `(start, a, accept, a, S)` on "a".
def Mscen : Automata :=
  ⟨"scen", ["q0", "acc", "rej"], ["a"], ["a", "_"], "q0", "acc", "rej",
    [⟨"q0", 'a', "acc", 'a', 'S'⟩]⟩

lemma Mscen_run :
    simulate_ntm Mscen ['a'] 100 =
      some ⟨Verdict.accepted 1, 1, [[⟨[], "q0", ['a']⟩], [⟨[], "acc", ['a']⟩]]⟩ := by
  rfl

-- A machine whose single rule reads `a` (not the blank `_`), run on the
-- empty input so the head starts out of bounds.
def M1 : Automata :=
  ⟨"M1", ["q0", "q1", "acc", "rej"], ["a"], ["a", "b", "_"], "q0", "acc", "rej",
    [⟨"q0", 'a', "q1", 'b', 'R'⟩]⟩

-- A machine that branches at depth 0: one branch accepts at depth 1, the
-- sibling branch survives until depth 2.
def M2 : Automata :=
  ⟨"M2", ["q0", "q1", "q2", "acc", "rej"], ["a"], ["a", "_"], "q0", "acc", "rej",
    [⟨"q0", 'a', "acc", 'a', 'S'⟩, ⟨"q0", 'a', "q1", 'a', 'S'⟩, ⟨"q1", 'a', "q2", 'a', 'S'⟩]⟩

-- A machine that enters the reject state at depth 1.
def Mr : Automata :=
  ⟨"Mr", ["q0", "acc", "rej"], ["a"], ["a", "_"], "q0", "acc", "rej",
    [⟨"q0", 'a', "rej", 'a', 'S'⟩]⟩

-- Degenerate machine: start state equals accept state, no transitions.
def M6 : Automata :=
  ⟨"M6", ["s", "rej"], ["a"], ["a", "_"], "s", "s", "rej", []⟩

-- Same machine but with the three distinguished states distinct.
def M6b : Automata :=
  ⟨"M6b", ["s", "acc", "rej"], ["a"], ["a", "_"], "s", "acc", "rej", []⟩

-- A machine whose second rule carries the malformed head move `X`; the
-- rule is reached only after a valid `R` move has set `new_head`.
def M9 : Automata :=
  ⟨"M9", ["q0", "q1", "q2", "acc", "rej"], ["a", "b"], ["a", "b", "c", "_"], "q0", "acc", "rej",
    [⟨"q0", 'a', "q1", 'b', 'R'⟩, ⟨"q1", 'b', "q2", 'c', 'X'⟩]⟩

-- A machine whose very first applied rule carries the malformed move `X`.
def M9b : Automata :=
  ⟨"M9b", ["q0", "q1", "acc", "rej"], ["a"], ["a", "b", "_"], "q0", "acc", "rej",
    [⟨"q0", 'a', "q1", 'b', 'X'⟩]⟩

lemma stepConfig_accept (aut : Automata) (c : Config) (stale : Option Nat)
    (h : c.state = aut.accept_state) :
    stepConfig aut c stale = some ([], 0, 1, 0, stale) := by
  simp [stepConfig, h]

lemma stepConfig_reject (aut : Automata) (c : Config) (stale : Option Nat)
    (hr : c.state = aut.reject_state) (hna : c.state ≠ aut.accept_state) :
    stepConfig aut c stale = some ([c], 0, 0, 1, stale) := by
  unfold stepConfig
  rw [if_neg hna, if_pos hr]

lemma stepConfig_accept_delta (aut : Automata) (c : Config) (stale : Option Nat)
    (cs : List Config) (n a rj : Nat) (st2 : Option Nat)
    (h : stepConfig aut c stale = some (cs, n, a, rj, st2)) :
    a = if c.state = aut.accept_state then 1 else 0 := by
  by_cases hacc : c.state = aut.accept_state
  · rw [stepConfig_accept aut c stale hacc] at h
    simp only [Option.some.injEq, Prod.mk.injEq] at h
    simp [hacc, h.2.2.1.symm]
  · by_cases hrej : c.state = aut.reject_state
    · rw [stepConfig_reject aut c stale hrej hacc] at h
      simp only [Option.some.injEq, Prod.mk.injEq] at h
      simp [hacc, h.2.2.1.symm]
    · simp only [stepConfig, if_neg hacc, if_neg hrej] at h
      cases hrt : runTransitions c.state (c.left ++ c.right) c.left.length aut.transitions stale with
      | none => rw [hrt] at h; exact absurd h (by simp)
      | some out =>
        obtain ⟨cs0, n0, st0⟩ := out
        rw [hrt] at h
        simp only [Option.some.injEq, Prod.mk.injEq] at h
        simp [hacc, h.2.2.1.symm]

lemma stepLevel_accept_count (aut : Automata) :
    ∀ (cfgs : List Config) (stale : Option Nat) next n a rj st2,
      stepLevel aut cfgs stale = some (next, n, a, rj, st2) →
      a = acceptCount aut cfgs := by
  intro cfgs
  induction cfgs with
  | nil =>
    intro stale next n a rj st2 h
    simp only [stepLevel, Option.some.injEq, Prod.mk.injEq] at h
    simp [acceptCount, h.2.2.1.symm]
  | cons c rest ih =>
    intro stale next n a rj st2 h
    cases h1 : stepConfig aut c stale with
    | none => simp [stepLevel, h1] at h
    | some out1 =>
      obtain ⟨cs1, n1, a1, rj1, s1⟩ := out1
      cases h2 : stepLevel aut rest s1 with
      | none => simp [stepLevel, h1, h2] at h
      | some out2 =>
        obtain ⟨cs2, n2, a2, rj2, s2⟩ := out2
        simp only [stepLevel, h1, h2, Option.some.injEq, Prod.mk.injEq] at h
        have hd := stepConfig_accept_delta aut c stale cs1 n1 a1 rj1 s1 h1
        have ht := ih s1 cs2 n2 a2 rj2 s2 h2
        have hcnt : acceptCount aut (c :: rest) =
            acceptCount aut rest + if (c.state == aut.accept_state) = true then 1 else 0 := by
          simp [acceptCount, List.countP_cons]
        rw [hcnt, ← ht, ← h.2.2.1]
        by_cases hacc : c.state = aut.accept_state
        · simp [hd, hacc, Nat.add_comm]
        · have : (c.state == aut.accept_state) = false := beq_eq_false_iff_ne.mpr hacc
          simp [hd, hacc, this]

lemma stepLevel_reject_mem (aut : Automata) (c : Config)
    (hr : c.state = aut.reject_state) (hna : c.state ≠ aut.accept_state) :
    ∀ (cfgs : List Config) (stale : Option Nat) next n a rj st2,
      stepLevel aut cfgs stale = some (next, n, a, rj, st2) → c ∈ cfgs → c ∈ next := by
  intro cfgs
  induction cfgs with
  | nil => intro stale next n a rj st2 _h hmem; exact absurd hmem (by simp)
  | cons d rest ih =>
    intro stale next n a rj st2 h hmem
    cases h1 : stepConfig aut d stale with
    | none => simp [stepLevel, h1] at h
    | some out1 =>
      obtain ⟨cs1, n1, a1, rj1, s1⟩ := out1
      cases h2 : stepLevel aut rest s1 with
      | none => simp [stepLevel, h1, h2] at h
      | some out2 =>
        obtain ⟨cs2, n2, a2, rj2, s2⟩ := out2
        simp only [stepLevel, h1, h2, Option.some.injEq, Prod.mk.injEq] at h
        rw [← h.1]
        rcases List.mem_cons.mp hmem with hdc | hrest
        · subst hdc
          rw [stepConfig_reject aut c stale hr hna] at h1
          simp only [Option.some.injEq, Prod.mk.injEq] at h1
          rw [← h1.1]
          exact List.mem_append_left _ (by simp)
        · exact List.mem_append_right _ (ih s1 cs2 n2 a2 rj2 s2 h2 hrest)

lemma stepLevel_append (aut : Automata) :
    ∀ (l1 l2 : List Config) (stale : Option Nat),
      stepLevel aut (l1 ++ l2) stale =
        match stepLevel aut l1 stale with
        | none => none
        | some (cs1, n1, a1, rj1, s1) =>
          match stepLevel aut l2 s1 with
          | none => none
          | some (cs2, n2, a2, rj2, s2) =>
            some (cs1 ++ cs2, n1 + n2, a1 + a2, rj1 + rj2, s2) := by
  intro l1
  induction l1 with
  | nil =>
    intro l2 stale
    simp only [List.nil_append, stepLevel]
    cases h2 : stepLevel aut l2 stale with
    | none => rfl
    | some out =>
      obtain ⟨cs2, n2, a2, rj2, s2⟩ := out
      simp
  | cons c rest ih =>
    intro l2 stale
    cases h1 : stepConfig aut c stale with
    | none => simp [stepLevel, h1]
    | some out1 =>
      obtain ⟨cs1, n1, a1, rj1, s1⟩ := out1
      simp only [List.cons_append, stepLevel, h1, List.append_eq]
      rw [ih l2 s1]
      cases h2 : stepLevel aut rest s1 with
      | none => rfl
      | some out2 =>
        obtain ⟨cs2, n2, a2, rj2, s2⟩ := out2
        cases h3 : stepLevel aut l2 s2 with
        | none => simp [h3]
        | some out3 =>
          obtain ⟨cs3, n3, a3, rj3, s3⟩ := out3
          simp [h3, List.append_assoc, Nat.add_assoc]

lemma simLoop_spec (aut : Automata) (ms : Nat) :
    ∀ (fuel depth : Nat) (pre : List (List Config)) (current : List Config)
      (total accept : Nat) (stale : Option Nat) (r : SimResult),
      simLoop aut ms fuel depth (pre ++ [current]) current total accept stale = some r →
      depth + 1 = (pre ++ [current]).length →
      fuel + depth = ms →
      accept = (pre.map (acceptCount aut)).sum →
      List.Chain' (LevelStep aut) (pre ++ [current]) →
      (∃ suffix, r.tree = (pre ++ [current]) ++ suffix) ∧
      List.Chain' (LevelStep aut) r.tree ∧
      r.tree.length ≤ ms + 1 ∧
      (r.verdict = Verdict.maxDepthReached ms ∨
        ∃ d p2 last st n a rj st2,
          r.tree = p2 ++ [last] ∧
          d + 1 = r.tree.length ∧
          stepLevel aut last st = some ([], n, a, rj, st2) ∧
          ((r.verdict = Verdict.accepted d ∧ (r.tree.map (acceptCount aut)).sum ≠ 0) ∨
           (r.verdict = Verdict.rejected d ∧ (r.tree.map (acceptCount aut)).sum = 0))) := by
  intro fuel
  induction fuel with
  | zero =>
    intro depth pre current total accept stale r h hlen hfuel hacc hchain
    simp only [simLoop, Option.some.injEq] at h
    subst h
    refine ⟨⟨[], by simp⟩, hchain, ?_, Or.inl rfl⟩
    rw [← hlen]
    omega
  | succ f ih =>
    intro depth pre current total accept stale r h hlen hfuel hacc hchain
    cases hsl : stepLevel aut current stale with
    | none => simp [simLoop, hsl] at h
    | some out =>
      obtain ⟨next, n, a, rj, st2⟩ := out
      have ha := stepLevel_accept_count aut current stale next n a rj st2 hsl
      cases next with
      | nil =>
        simp only [simLoop, hsl, List.isEmpty_nil, if_true, Option.some.injEq] at h
        subst h
        have hsum : (((pre ++ [current]).map (acceptCount aut)).sum) = accept + a := by
          rw [List.map_append, List.sum_append, hacc]
          simp [ha]
        refine ⟨⟨[], by simp⟩, hchain, ?_, Or.inr ?_⟩
        · rw [← hlen]; omega
        · refine ⟨depth, pre, current, stale, n, a, rj, st2, rfl, hlen, hsl, ?_⟩
          by_cases hpos : accept + a > 0
          · left
            exact ⟨by simp [hpos], by rw [hsum]; omega⟩
          · right
            exact ⟨by simp [hpos], by rw [hsum]; omega⟩
      | cons c0 rest0 =>
        simp only [simLoop, hsl, List.isEmpty_cons, if_false, Bool.false_eq_true] at h
        have hlen2 : (depth + 1) + 1 = ((pre ++ [current]) ++ [c0 :: rest0]).length := by
          simp only [List.length_append, List.length_singleton] at hlen ⊢
          omega
        have hfuel2 : f + (depth + 1) = ms := by omega
        have hacc2 : accept + a = ((pre ++ [current]).map (acceptCount aut)).sum := by
          rw [List.map_append, List.sum_append, hacc]
          simp [ha]
        have hchain2 : List.Chain' (LevelStep aut) ((pre ++ [current]) ++ [c0 :: rest0]) := by
          rw [List.chain'_append]
          refine ⟨hchain, List.chain'_singleton _, ?_⟩
          intro x hx y hy
          rw [List.getLast?_concat] at hx
          simp only [List.head?_cons, Option.mem_def, Option.some.injEq] at hx hy
          subst hx
          subst hy
          exact ⟨stale, n, a, rj, st2, hsl⟩
        obtain ⟨⟨s, hs⟩, hch, hlen3, hrest⟩ :=
          ih (depth + 1) (pre ++ [current]) (c0 :: rest0) (total + n) (accept + a) st2 r h
            hlen2 hfuel2 hacc2 hchain2
        refine ⟨⟨(c0 :: rest0) :: s, ?_⟩, hch, hlen3, hrest⟩
        rw [hs]
        simp

lemma simulate_spec (aut : Automata) (input : List Char) (ms : Nat) (r : SimResult)
    (h : simulate_ntm aut input ms = some r) :
    (∃ suffix, r.tree = [[⟨[], aut.start_state, input⟩]] ++ suffix) ∧
    List.Chain' (LevelStep aut) r.tree ∧
    r.tree.length ≤ ms + 1 ∧
    (r.verdict = Verdict.maxDepthReached ms ∨
      ∃ d p2 last st n a rj st2,
        r.tree = p2 ++ [last] ∧
        d + 1 = r.tree.length ∧
        stepLevel aut last st = some ([], n, a, rj, st2) ∧
        ((r.verdict = Verdict.accepted d ∧ (r.tree.map (acceptCount aut)).sum ≠ 0) ∨
         (r.verdict = Verdict.rejected d ∧ (r.tree.map (acceptCount aut)).sum = 0))) := by
  have h0 : simLoop aut ms ms 0 ([] ++ [[⟨[], aut.start_state, input⟩]])
      [⟨[], aut.start_state, input⟩] 0 0 none = some r := h
  exact simLoop_spec aut ms ms 0 [] [⟨[], aut.start_state, input⟩] 0 0 none r h0
    (by simp) (by omega) (by simp) (by simp)

lemma levelStep_reject_mem (aut : Automata) (c : Config)
    (hr : c.state = aut.reject_state) (hna : c.state ≠ aut.accept_state)
    {l l2 : List Config} (hstep : LevelStep aut l l2) (hmem : c ∈ l) : c ∈ l2 := by
  obtain ⟨stale, n, a, rj, st2, h⟩ := hstep
  exact stepLevel_reject_mem aut c hr hna l stale l2 n a rj st2 h hmem

lemma chain_reject_mem_last (aut : Automata) (c : Config)
    (hr : c.state = aut.reject_state) (hna : c.state ≠ aut.accept_state) :
    ∀ (p2 : List (List Config)) (last : List Config),
      List.Chain' (LevelStep aut) (p2 ++ [last]) →
      ∀ L ∈ p2 ++ [last], c ∈ L → c ∈ last := by
  intro p2
  induction p2 with
  | nil =>
    intro last _ L hL hmem
    simp only [List.nil_append, List.mem_singleton] at hL
    subst hL
    exact hmem
  | cons hd tl ih =>
    intro last hchain L hL hmem
    rw [List.cons_append, List.chain'_cons'] at hchain
    obtain ⟨hrel, hchain2⟩ := hchain
    rcases List.mem_cons.mp hL with hLhd | hLtl
    · subst hLhd
      cases tl with
      | nil =>
        have hstep : LevelStep aut L last := hrel last (by simp)
        exact levelStep_reject_mem aut c hr hna hstep hmem
      | cons t0 ts =>
        have hstep : LevelStep aut L t0 := hrel t0 (by simp)
        have hmem0 : c ∈ t0 := levelStep_reject_mem aut c hr hna hstep hmem
        exact ih last hchain2 t0 (by simp) hmem0
    · exact ih last hchain2 L hLtl hmem

/-- Claim C1: the claim says that from an out-of-bounds head position only
rules whose `readSymbol` is the blank sentinel `_` are applied.  The code
disagrees: because the Python conditional expression on line 91 binds
tighter than `and`, the out-of-bounds branch of the guard is the truthy
string `"_"`, so every rule whose `fromState` matches is applied there
regardless of its `readSymbol`.  On `M1` (single rule reading `a`, not
`_`) with empty input (head at 0, tape length 0), the rule fires: one
transition is counted and the written configuration appears at depth 1. -/
theorem C1_out_of_bounds_guard_bug :
    transMatches ⟨"q0", 'a', "q1", 'b', 'R'⟩ "q0" [] 0 = true ∧
    ('a' : Char) ≠ '_' ∧
    simulate_ntm M1 [] 100 =
      some ⟨Verdict.rejected 1, 1, [[⟨[], "q0", []⟩], [⟨['b'], "q1", ['_']⟩]]⟩ :=
  ⟨by rfl, by decide, by rfl⟩

/-- Claim C9: the claim says a rule with a head move outside `{L,R,S}`
makes the run fail immediately with a hard `MalformedTransition` error.
The code disagrees: when the malformed rule fires after some earlier rule
already assigned the Python local `new_head`, the stale value is silently
reused and the run completes normally (machine `M9`, which applies the
`X`-move rule at depth 1 and keeps going to a depth-2 rejection); only
when no `new_head` was ever assigned does the run die, and then with an
`UnboundLocalError` (machine `M9b`, modelled as `none`). -/
theorem C9_malformed_move_not_hard_error :
    (('X' : Char) ≠ 'L' ∧ ('X' : Char) ≠ 'R' ∧ ('X' : Char) ≠ 'S') ∧
    simulate_ntm M9 ['a', 'b'] 100 =
      some ⟨Verdict.rejected 2, 2,
        [[⟨[], "q0", ['a', 'b']⟩], [⟨['b'], "q1", ['b']⟩], [⟨['b'], "q2", ['c']⟩]]⟩ ∧
    simulate_ntm M9b ['a'] 100 = none :=
  ⟨by decide, by rfl, by rfl⟩

/-- Claim C10: the simulation is deterministic — two calls with identical
machine, input and step bound return the identical result, trace
included. -/
theorem C10_determinism (aut aut2 : Automata) (input input2 : List Char) (ms ms2 : Nat)
    (h1 : aut = aut2) (h2 : input = input2) (h3 : ms = ms2) :
    simulate_ntm aut input ms = simulate_ntm aut2 input2 ms2 := by
  subst h1
  subst h2
  subst h3
  rfl

/-- Witness for C10 at a concrete machine and input. -/
theorem C10_determinism_witness :
    simulate_ntm Mscen ['a'] 100 = simulate_ntm Mscen ['a'] 100 :=
  C10_determinism Mscen Mscen ['a'] ['a'] 100 100 rfl rfl rfl

/-- Claim C6 counterexample: the claim quantifies over every machine with
an empty transition table, but a machine whose start state coincides with
its accept state (here `M6`, `start = accept = "s"`) is reported accepted
at depth 0 on input `"a"`, not rejected. -/
theorem C6_counterexample :
    M6.transitions = [] ∧ M6.start_state = M6.accept_state ∧
    simulate_ntm M6 ['a'] 100 =
      some ⟨Verdict.accepted 0, 0, [[⟨[], "s", ['a']⟩]]⟩ :=
  ⟨rfl, rfl, by rfl⟩

/-- Claim C6 (amended): for every machine with an empty transition table
whose start state differs from both the accept and the reject state, and
any positive step bound, the run on any (in particular any non-empty)
input terminates rejected at depth 0 with 0 transitions. -/
theorem C6_amended (aut : Automata) (input : List Char) (ms : Nat)
    (ht : aut.transitions = []) (h1 : aut.start_state ≠ aut.accept_state)
    (h2 : aut.start_state ≠ aut.reject_state) (hms : 0 < ms) (_hinp : input ≠ []) :
    simulate_ntm aut input ms =
      some ⟨Verdict.rejected 0, 0, [[⟨[], aut.start_state, input⟩]]⟩ := by
  obtain ⟨k, rfl⟩ : ∃ k, ms = k + 1 := ⟨ms - 1, by omega⟩
  have hcfg : stepConfig aut ⟨[], aut.start_state, input⟩ none = some ([], 0, 0, 0, none) := by
    show (if aut.start_state = aut.accept_state then _ else _) = _
    rw [if_neg h1, if_neg h2, ht]
    rfl
  have hlv : stepLevel aut [⟨[], aut.start_state, input⟩] none = some ([], 0, 0, 0, none) := by
    show (match stepConfig aut ⟨[], aut.start_state, input⟩ none with
      | none => none
      | some (cs, n, a, rj, st2) =>
        match stepLevel aut [] st2 with
        | none => none
        | some (cs2, n2, a2, rj2, st3) =>
          some (cs ++ cs2, n + n2, a + a2, rj + rj2, st3)) = _
    rw [hcfg]
    rfl
  simp only [simulate_ntm, simLoop, hlv, List.isEmpty_nil, if_true]
  rfl

/-- Witness for C6 (amended) at the concrete machine `M6b`. -/
theorem C6_amended_witness :
    simulate_ntm M6b ['a'] 1 =
      some ⟨Verdict.rejected 0, 0, [[⟨[], M6b.start_state, ['a']⟩]]⟩ :=
  C6_amended M6b ['a'] 1 rfl (by decide) (by decide) (by decide) (by decide)

/-- Claim C2 counterexample: on `M2` with input `"a"`, one branch reaches
the accept state at depth 1 (the `acc` configuration sits in level 1 of
the trace), yet the run only terminates at depth 2 — the verdict is
`accepted 2`, not `accepted 1`, so the reported depth is the termination
depth, not the level at which the branch first reached `acceptState`. -/
theorem C2_counterexample :
    simulate_ntm M2 ['a'] 100 =
      some ⟨Verdict.accepted 2, 3,
        [[⟨[], "q0", ['a']⟩], [⟨[], "acc", ['a']⟩, ⟨[], "q1", ['a']⟩],
          [⟨[], "q2", ['a']⟩]]⟩ ∧
    (⟨[], "acc", ['a']⟩ : Config).state = M2.accept_state ∧ (2 : Nat) ≠ 1 :=
  ⟨by rfl, rfl, by omega⟩

/-- Claim C2 (amended): when the run terminates (verdict `accepted` or
`rejected`), the reported depth is the index of the last trace level
(termination depth), which may be later than the level at which a branch
first reached `acceptState`; and on a terminating run the verdict is
`accepted` iff some branch reached the accept state: an `accepted`
verdict implies an accept-state configuration in some trace level, and a
`rejected` verdict implies no configuration of any level has the accept
state. -/
theorem C2_amended (aut : Automata) (input : List Char) (ms : Nat) (r : SimResult)
    (h : simulate_ntm aut input ms = some r) :
    (∀ d, r.verdict = Verdict.accepted d ∨ r.verdict = Verdict.rejected d →
      d + 1 = r.tree.length) ∧
    (∀ d, r.verdict = Verdict.accepted d →
      ∃ L ∈ r.tree, ∃ c ∈ L, c.state = aut.accept_state) ∧
    (∀ d, r.verdict = Verdict.rejected d →
      ∀ L ∈ r.tree, ∀ c ∈ L, c.state ≠ aut.accept_state) := by
  obtain ⟨_, _, _, hv⟩ := simulate_spec aut input ms r h
  refine ⟨?_, ?_, ?_⟩
  · intro d hd
    rcases hv with hmax | ⟨d2, p2, last, st, n, a, rj, st2, _ht, hlen, _hsl, hcase⟩
    · rcases hd with hd | hd <;> rw [hd] at hmax <;> exact absurd hmax (by simp)
    · rcases hcase with ⟨hacc, _⟩ | ⟨hrej, _⟩
      · rcases hd with hd | hd
        · rw [hd] at hacc
          have hdd : d = d2 := by injection hacc
          rw [hdd]
          exact hlen
        · rw [hd] at hacc
          exact absurd hacc (by simp)
      · rcases hd with hd | hd
        · rw [hd] at hrej
          exact absurd hrej (by simp)
        · rw [hd] at hrej
          have hdd : d = d2 := by injection hrej
          rw [hdd]
          exact hlen
  · intro d hd
    rcases hv with hmax | ⟨d2, p2, last, st, n, a, rj, st2, _ht, _hlen, _hsl, hcase⟩
    · rw [hd] at hmax
      exact absurd hmax (by simp)
    · rcases hcase with ⟨_hacc, hsum⟩ | ⟨hrej, _⟩
      · have hex : ¬ ∀ x ∈ r.tree.map (acceptCount aut), x = 0 :=
          fun hall => hsum (List.sum_eq_zero_iff.mpr hall)
        push_neg at hex
        obtain ⟨x, hxmem, hxne⟩ := hex
        obtain ⟨L, hLmem, hLx⟩ := List.mem_map.mp hxmem
        have hcnt : acceptCount aut L ≠ 0 := by
          rw [hLx]
          exact hxne
        have hex2 : ¬ ∀ c ∈ L, ¬(c.state == aut.accept_state) = true :=
          fun hall => hcnt (List.countP_eq_zero.mpr hall)
        push_neg at hex2
        obtain ⟨c, hcmem, hceq⟩ := hex2
        exact ⟨L, hLmem, c, hcmem, by simpa using hceq⟩
      · rw [hd] at hrej
        exact absurd hrej (by simp)
  · intro d hd L hLmem c hcmem hceq
    rcases hv with hmax | ⟨d2, p2, last, st, n, a, rj, st2, _ht, _hlen, _hsl, hcase⟩
    · rw [hd] at hmax
      exact absurd hmax (by simp)
    · rcases hcase with ⟨hacc, _⟩ | ⟨_hrej, hsum⟩
      · rw [hd] at hacc
        exact absurd hacc (by simp)
      · have hL0 : acceptCount aut L = 0 :=
          List.sum_eq_zero_iff.mp hsum (acceptCount aut L)
            (List.mem_map_of_mem (acceptCount aut) hLmem)
        have := List.countP_eq_zero.mp hL0 c hcmem
        exact this (by simp [hceq])

/-- Witness for C2 (amended), instantiated on the `M2` run: the accepted
verdict's reported depth 2 is the index of the last of the three trace
levels. -/
theorem C2_amended_witness :
    2 + 1 = ([[⟨[], "q0", ['a']⟩], [⟨[], "acc", ['a']⟩, ⟨[], "q1", ['a']⟩],
      [⟨[], "q2", ['a']⟩]] : List (List Config)).length :=
  (C2_amended M2 ['a'] 100
      ⟨Verdict.accepted 2, 3,
        [[⟨[], "q0", ['a']⟩], [⟨[], "acc", ['a']⟩, ⟨[], "q1", ['a']⟩],
          [⟨[], "q2", ['a']⟩]]⟩ (by rfl)).1 2 (Or.inl rfl)

/-- Claim C3: a configuration in the reject state is never expanded (it
contributes no transition applications: its `stepConfig` yields zero
transition delta and re-emits exactly the identical configuration), and
within any run's trace it propagates from each level into the next, hence
appears in every subsequent level. -/
theorem C3_reject_retained (aut : Automata) (input : List Char) (ms : Nat) (r : SimResult)
    (h : simulate_ntm aut input ms = some r) (c : Config)
    (hr : c.state = aut.reject_state) (hna : c.state ≠ aut.accept_state) :
    (∀ stale, stepConfig aut c stale = some ([c], 0, 0, 1, stale)) ∧
    (∀ i (hi : i + 1 < r.tree.length),
      c ∈ r.tree.get ⟨i, Nat.lt_of_succ_lt hi⟩ → c ∈ r.tree.get ⟨i + 1, hi⟩) := by
  obtain ⟨_, hchain, _, _⟩ := simulate_spec aut input ms r h
  refine ⟨fun stale => stepConfig_reject aut c stale hr hna, ?_⟩
  intro i hi hmem
  have hstep := List.chain'_iff_get.mp hchain i (by omega)
  exact levelStep_reject_mem aut c hr hna hstep hmem

/-- Witness for C3 on the `Mr` run (reject entered at depth 1, re-emitted
at depth 2): the reject configuration propagates from level 1 to level 2
of the concrete trace. -/
theorem C3_reject_retained_witness :
    stepConfig Mr ⟨[], "rej", ['a']⟩ none = some ([⟨[], "rej", ['a']⟩], 0, 0, 1, none) ∧
    (⟨[], "rej", ['a']⟩ : Config) ∈
      ([[⟨[], "q0", ['a']⟩], [⟨[], "rej", ['a']⟩], [⟨[], "rej", ['a']⟩]] :
        List (List Config)).get ⟨2, by decide⟩ := by
  have h := C3_reject_retained Mr ['a'] 2
    ⟨Verdict.maxDepthReached 2, 1,
      [[⟨[], "q0", ['a']⟩], [⟨[], "rej", ['a']⟩], [⟨[], "rej", ['a']⟩]]⟩
    (by rfl) ⟨[], "rej", ['a']⟩ rfl (by decide)
  exact ⟨h.1 none, h.2 1 (by decide) (by decide)⟩

/-- Claim C4: once a reject-state configuration appears in any trace
level (and the accept and reject states are distinct, so the reject
branch of the code actually handles it), it is re-emitted forever, every
next level is non-empty, the empty-level termination branch is never
taken, and the run reports only the maximum-depth outcome — never the
`accepted` or `rejected` verdict. -/
theorem C4_reject_forces_max_depth (aut : Automata) (input : List Char) (ms : Nat)
    (r : SimResult) (h : simulate_ntm aut input ms = some r)
    (hdist : aut.accept_state ≠ aut.reject_state)
    (L : List Config) (hL : L ∈ r.tree) (c : Config) (hc : c ∈ L)
    (hrej : c.state = aut.reject_state) :
    r.verdict = Verdict.maxDepthReached ms := by
  have hna : c.state ≠ aut.accept_state := by
    rw [hrej]
    exact fun he => hdist he.symm
  obtain ⟨_, hchain, _, hv⟩ := simulate_spec aut input ms r h
  rcases hv with hmax | ⟨d, p2, last, st, n, a, rj, st2, ht, _hlen, hsl, _⟩
  · exact hmax
  · exfalso
    rw [ht] at hchain hL
    have hlast : c ∈ last := chain_reject_mem_last aut c hrej hna p2 last hchain L hL hc
    have : c ∈ ([] : List Config) :=
      stepLevel_reject_mem aut c hrej hna last st [] n a rj st2 hsl hlast
    simp at this

/-- Witness for C4 on the `Mr` run with step bound 2: the reject
configuration at level 1 forces the max-depth report. -/
theorem C4_reject_forces_max_depth_witness :
    (⟨Verdict.maxDepthReached 2, 1,
      [[⟨[], "q0", ['a']⟩], [⟨[], "rej", ['a']⟩], [⟨[], "rej", ['a']⟩]]⟩ :
        SimResult).verdict = Verdict.maxDepthReached 2 :=
  C4_reject_forces_max_depth Mr ['a'] 2
    ⟨Verdict.maxDepthReached 2, 1,
      [[⟨[], "q0", ['a']⟩], [⟨[], "rej", ['a']⟩], [⟨[], "rej", ['a']⟩]]⟩
    (by rfl) (by decide) [⟨[], "rej", ['a']⟩] (by decide) ⟨[], "rej", ['a']⟩
    (by decide) rfl

/-- Claim C5: a configuration in the accept state terminates its branch —
it contributes no successor configuration and no transition application —
and acceptance does not short-circuit the level: the configurations after
it in the same level are still processed and their results appear
unchanged in the level's output. -/
theorem C5_accept_no_short_circuit (aut : Automata) (c : Config)
    (hacc : c.state = aut.accept_state) (stale : Option Nat)
    (l1 l2 cs1 cs2 : List Config) (n1 a1 rj1 n2 a2 rj2 : Nat) (s1 s2 : Option Nat)
    (h1 : stepLevel aut l1 stale = some (cs1, n1, a1, rj1, s1))
    (h2 : stepLevel aut l2 s1 = some (cs2, n2, a2, rj2, s2)) :
    stepConfig aut c s1 = some ([], 0, 1, 0, s1) ∧
    stepLevel aut (l1 ++ c :: l2) stale =
      some (cs1 ++ cs2, n1 + n2, a1 + (1 + a2), rj1 + rj2, s2) := by
  refine ⟨stepConfig_accept aut c s1 hacc, ?_⟩
  have hc : stepLevel aut (c :: l2) s1 = some (cs2, n2, 1 + a2, rj2, s2) := by
    simp only [stepLevel, stepConfig_accept aut c s1 hacc, h2]
    simp
  rw [stepLevel_append aut l1 (c :: l2) stale]
  simp only [h1, hc]

/-- Witness for C5: in a level holding an accepting configuration between
two live ones (machine `Mscen`), the accepting configuration adds nothing
and both neighbours are still expanded. -/
theorem C5_accept_no_short_circuit_witness :
    stepConfig Mscen ⟨[], "acc", ['a']⟩ (some 0) = some ([], 0, 1, 0, some 0) ∧
    stepLevel Mscen
        ([⟨[], "q0", ['a']⟩] ++ (⟨[], "acc", ['a']⟩ : Config) :: [⟨[], "q0", ['a']⟩])
        none =
      some ([⟨[], "acc", ['a']⟩] ++ [⟨[], "acc", ['a']⟩], 1 + 1, 0 + (1 + 0), 0 + 0,
        some 0) :=
  C5_accept_no_short_circuit Mscen ⟨[], "acc", ['a']⟩ rfl none
    [⟨[], "q0", ['a']⟩] [⟨[], "q0", ['a']⟩] [⟨[], "acc", ['a']⟩] [⟨[], "acc", ['a']⟩]
    1 0 0 1 0 0 (some 0) (some 0) (by rfl) (by rfl)


lemma clamp_append_cases (wt : List Char) (r0 : Int) :
    appendIfPastEnd (clampInsert wt r0) = wt ∨
    appendIfPastEnd (clampInsert wt r0) = '_' :: wt ∨
    appendIfPastEnd (clampInsert wt r0) = wt ++ ['_'] := by
  unfold clampInsert appendIfPastEnd
  by_cases h0 : r0 < 0
  · simp [h0]
  · by_cases h1 : wt.length ≤ r0.toNat
    · simp [h0, h1]
    · simp [h0, h1]

/-- Claim C7: applying any transition preserves the tape content: the
concatenation of the produced configuration's left and right segments is
exactly the prior tape with (only) the cell at the prior head position
rewritten (or appended, when the head sat just past the end), possibly
with one extra blank cell added at the left or the right edge; and the
write touches no other in-bounds cell of the prior tape. -/
theorem C7_tape_round_trip (t : Transition) (tape : List Char) (head : Nat)
    (stale : Option Nat) (c : Config) (h2 : Nat)
    (h : applyTransition t tape head stale = some (c, h2)) :
    (c.left ++ c.right = writeCell tape head t.tape_write ∨
     c.left ++ c.right = '_' :: writeCell tape head t.tape_write ∨
     c.left ++ c.right = writeCell tape head t.tape_write ++ ['_']) ∧
    (∀ i, i < tape.length → i ≠ head →
      (writeCell tape head t.tape_write).getD i '_' = tape.getD i '_') := by
  constructor
  · simp only [applyTransition] at h
    cases hraw : moveHead t.head_move head stale with
    | none =>
      simp only [hraw] at h
      exact absurd h (by simp)
    | some r0 =>
      simp only [hraw, Option.some.injEq, Prod.mk.injEq] at h
      have hcc : c.left ++ c.right =
          appendIfPastEnd (clampInsert (writeCell tape head t.tape_write) r0) := by
        rw [← h.1]
        exact List.take_append_drop _ _
      rw [hcc]
      exact clamp_append_cases (writeCell tape head t.tape_write) r0
  · intro i hi hne
    unfold writeCell
    by_cases hh : head < tape.length
    · rw [if_pos hh, List.getD_eq_getElem?_getD, List.getD_eq_getElem?_getD,
        List.getElem?_set_ne (fun he => hne he.symm)]
    · rw [if_neg hh, List.getD_eq_getElem?_getD, List.getD_eq_getElem?_getD,
        List.getElem?_append_left hi]

/-- Witness for C7: the single `R`-move transition of `Mscen` applied to
the one-cell tape `"a"` at head 0 yields segments rejoining to the
written tape plus one appended blank. -/
theorem C7_tape_round_trip_witness :
    ((⟨['a'], "acc", ['_']⟩ : Config).left ++ (⟨['a'], "acc", ['_']⟩ : Config).right =
        writeCell ['a'] 0 'a' ∨
      (⟨['a'], "acc", ['_']⟩ : Config).left ++ (⟨['a'], "acc", ['_']⟩ : Config).right =
        '_' :: writeCell ['a'] 0 'a' ∨
      (⟨['a'], "acc", ['_']⟩ : Config).left ++ (⟨['a'], "acc", ['_']⟩ : Config).right =
        writeCell ['a'] 0 'a' ++ ['_']) ∧
    (∀ i, i < (['a'] : List Char).length → i ≠ 0 →
      (writeCell ['a'] 0 'a').getD i '_' = (['a'] : List Char).getD i '_') :=
  C7_tape_round_trip ⟨"q0", 'a', "acc", 'a', 'R'⟩ ['a'] 0 none
    ⟨['a'], "acc", ['_']⟩ 1 (by rfl)

/-- Claim C8: the breadth-first loop always halts, the depth it reports —
whether terminating (accepted/rejected) or stopping (max depth) — never
exceeds `max_steps`, and an omitted step bound means `max_steps = 100`. -/
theorem C8_depth_bound (aut : Automata) (input : List Char) (ms : Nat) :
    simulate_ntm aut input = simulate_ntm aut input 100 ∧
    ∀ r, simulate_ntm aut input ms = some r → r.verdict.depth ≤ ms := by
  refine ⟨rfl, ?_⟩
  intro r h
  obtain ⟨_, _, hlen, hv⟩ := simulate_spec aut input ms r h
  rcases hv with hmax | ⟨d, p2, last, st, n, a, rj, st2, _ht, hdlen, _hsl, hcase⟩
  · rw [hmax]
    exact Nat.le_refl ms
  · rcases hcase with ⟨hacc, _⟩ | ⟨hrej, _⟩
    · rw [hacc]
      show d ≤ ms
      omega
    · rw [hrej]
      show d ≤ ms
      omega

/-- Witness for C8 on the `Mr` run with step bound 2: the reported depth
is 2 ≤ 2. -/
theorem C8_depth_bound_witness :
    (⟨Verdict.maxDepthReached 2, 1,
      [[⟨[], "q0", ['a']⟩], [⟨[], "rej", ['a']⟩], [⟨[], "rej", ['a']⟩]]⟩ :
        SimResult).verdict.depth ≤ 2 :=
  (C8_depth_bound Mr ['a'] 2).2
    ⟨Verdict.maxDepthReached 2, 1,
      [[⟨[], "q0", ['a']⟩], [⟨[], "rej", ['a']⟩], [⟨[], "rej", ['a']⟩]]⟩ (by rfl)
